import Mathlib

/-!
Verification development for the dataset-preparation pipeline
(src/utils/prepare_dataset.py).

The dataframe is modelled shallowly: a frame is an ordered list of named
columns, a column is an ordered list of optional rational values (missing
values, pandas NaN, are modelled as none).  Machine floats are modelled as
exact rationals; the float literal 1e-6 is the rational 1/1000000.

Pearson correlations involve a square root, so their values are irrational;
the code only ever compares an absolute correlation against a threshold, and
those comparisons are embedded exactly through squared quantities
(for s = sqrt(Sxx*Syy) > 0 and the scaled covariance Sxy one has
|Sxy/s| > t  iff  t < 0 or t^2*Sxx*Syy < Sxy^2).  A noncomputable real-valued
correlation is also defined and the boolean comparisons are proved equivalent
to the real ones, so the encoding itself is verified.

The base-10 logarithm of the target transform is likewise irrational, so the
pipeline is parametrised by an arbitrary function flog : Q -> Q standing for
log10.  Every statement that depends on actual logarithm values is made at a
point where the result is independent of flog, or flog is instantiated with a
concrete stand-in.  np.log10 yields NaN (modelled: none) on a negative
argument; the argument-exactly-zero case yields -inf, which the rational
value model cannot represent, and the definedness condition 0 < x + 1e-6
used here folds it into the missing case.
-/

attribute [local semireducible] Rat.add Rat.mul Rat.sub Rat.inv Rat.ofScientific

abbrev Val := Option ℚ

abbrev Column := String × List Val

abbrev Frame := List Column

instance exceptDecEq {α β : Type} [DecidableEq α] [DecidableEq β] : DecidableEq (Except α β)
  | .error x, .error y => decidable_of_iff (x = y) (by simp)
  | .error _, .ok _ => isFalse (by simp)
  | .ok _, .error _ => isFalse (by simp)
  | .ok x, .ok y => decidable_of_iff (x = y) (by simp)

instance tripleDecEq : DecidableEq (Frame × String × Frame) := fun a b =>
  instDecidableEqProd a b

/-- Defined (non-missing) values of a column, in order; pandas skipna view. -/
def vals (c : List Val) : List ℚ := c.filterMap id

/-- Does the column contain a missing value (pandas: series has a NaN)? -/
def hasNoneCol (c : List Val) : Bool := c.any fun o => o.isNone

/-- pandas Series.nunique: number of distinct non-missing values. -/
def nuniqueCol (c : List Val) : Nat := ((vals c).dedup).length

/-- Scaled variance of a list of rationals: n * sum x^2 - (sum x)^2.
This is n^2 times the population variance; it is zero exactly when the
sample standard deviation (any ddof) is zero, and positive otherwise. -/
def svarOf (l : List ℚ) : ℚ := (l.length : ℚ) * ((l.map fun x => x ^ 2).sum) - (l.sum) ^ 2

/-- pandas (features.std() == 0) for one column: the sample standard deviation
(ddof=1, skipna) is an exact zero.  With fewer than two defined values the
standard deviation is NaN, and NaN == 0 is false. -/
def stdIsZero (c : List Val) : Bool :=
  decide (2 ≤ (vals c).length) && decide (svarOf (vals c) = 0)

/-- Pairwise-complete observations of two columns: the rows where both values
are defined (pandas correlation drops the other rows). -/
def pairedObs (xs ys : List Val) : List (ℚ × ℚ) :=
  (xs.zip ys).filterMap fun p => p.1.bind fun a => p.2.map fun b => (a, b)

/-- Scaled variance of the first components of the paired observations. -/
def pSxx (p : List (ℚ × ℚ)) : ℚ := svarOf (p.map Prod.fst)

/-- Scaled variance of the second components of the paired observations. -/
def pSyy (p : List (ℚ × ℚ)) : ℚ := svarOf (p.map Prod.snd)

/-- Scaled covariance: n * sum xy - (sum x)(sum y). -/
def pSxy (p : List (ℚ × ℚ)) : ℚ :=
  (p.length : ℚ) * ((p.map fun q => q.1 * q.2).sum)
    - (p.map Prod.fst).sum * (p.map Prod.snd).sum

/-- The Pearson correlation of the two columns is a defined number (pandas:
not NaN): both pairwise-complete variances are positive. -/
def corrDefinedb (xs ys : List Val) : Bool :=
  decide (0 < pSxx (pairedObs xs ys)) && decide (0 < pSyy (pairedObs xs ys))

/-- The comparison |corr(xs, ys)| > t as the code performs it (a NaN
correlation compares false), embedded through squared quantities. -/
def absCorrGTb (xs ys : List Val) (t : ℚ) : Bool :=
  corrDefinedb xs ys &&
    (decide (t < 0) ||
      decide (t ^ 2 * pSxx (pairedObs xs ys) * pSyy (pairedObs xs ys)
        < (pSxy (pairedObs xs ys)) ^ 2))

/-- The Pearson correlation as a real number (specification side):
Sxy / sqrt(Sxx * Syy) over the pairwise-complete observations. -/
noncomputable def corrRe (xs ys : List Val) : ℝ :=
  ((pSxy (pairedObs xs ys) : ℚ) : ℝ) /
    Real.sqrt (((pSxx (pairedObs xs ys) : ℚ) : ℝ) * ((pSyy (pairedObs xs ys) : ℚ) : ℝ))

/-- Propositional form of correlation definedness. -/
def corrDefinedP (xs ys : List Val) : Prop :=
  0 < pSxx (pairedObs xs ys) ∧ 0 < pSyy (pairedObs xs ys)

/-- Column names of a frame, in order. -/
def names (d : Frame) : List String := d.map Prod.fst

/-- First column with the given name, if any (pandas data[name] on a frame
with unique column names). -/
def colFind (d : Frame) (n : String) : Option (List Val) :=
  (d.find? fun c => decide (c.1 = n)).map Prod.snd

/-- Column access that raises: pandas data[name] raises KeyError when the
name is absent. -/
def colE (d : Frame) (n : String) : Except String (List Val) :=
  match colFind d n with
  | some v => .ok v
  | none => .error ("KeyError: " ++ n)

/-- Stage 1 of the pipeline: drop every column whose nunique equals 1. -/
def dropConstant (d : Frame) : Frame := d.filter fun c => decide (nuniqueCol c.2 ≠ 1)

/-- Drop the columns whose name belongs to the list. -/
def dropCols (d : Frame) (ns : List String) : Frame := d.filter fun c => decide (c.1 ∉ ns)

/-- Stage 2: drop every key column that is present and is not the target. -/
def dropKeysStage (d : Frame) (key_cols : List String) (t : String) : Frame :=
  dropCols d (key_cols.filter fun c => decide (c ∈ names d) && decide (c ≠ t))

/-- Keep the rows of a column selected by a boolean mask. -/
def applyMask (mask : List Bool) (c : List Val) : List Val :=
  (c.zip mask).filterMap fun p => if p.2 then some p.1 else none

/-- Keep the rows of a frame selected by a boolean mask (pandas boolean
indexing data[mask]). -/
def filterRows (d : Frame) (mask : List Bool) : Frame :=
  d.map fun c => (c.1, applyMask mask c.2)

/-- Insertion into a sorted list of rationals. -/
def insertSorted (x : ℚ) : List ℚ → List ℚ
  | [] => [x]
  | y :: r => if x ≤ y then x :: y :: r else y :: insertSorted x r

/-- Insertion sort; only the multiset of values matters for the quantile. -/
def sortQ (l : List ℚ) : List ℚ := l.foldr insertSorted []

/-- pandas Series.quantile(q): missing values are dropped, and the default
linear interpolation at position q*(n-1) over the sorted defined values is
used; the result is NaN (none) when no defined value exists. -/
def quantileQ (q : ℚ) (c : List Val) : Option ℚ :=
  let v := sortQ (vals c)
  if v.isEmpty then none
  else
    let p : ℚ := q * ((v.length : ℚ) - 1)
    let i : Nat := (Rat.floor p).toNat
    let g : ℚ := p - (i : ℚ)
    some (v.getD i 0 + g * (v.getD (i + 1) (v.getD i 0) - v.getD i 0))

/-- Row mask of the Tukey-fence outlier filter on the target column.  When a
quantile is NaN (no defined target value) every comparison with the NaN
bounds is false and no row is kept; a missing target value likewise compares
false on both bounds. -/
def outlierMask (tc : List Val) : List Bool :=
  match quantileQ (1/4) tc, quantileQ (3/4) tc with
  | some q1, some q3 =>
      tc.map fun o =>
        match o with
        | some x => decide (q1 - 3/2 * (q3 - q1) ≤ x) && decide (x ≤ q3 + 3/2 * (q3 - q1))
        | none => false
  | _, _ => tc.map fun _ => false

/-- Stage 3 body: data = data[(data[t] >= lower) & (data[t] <= upper)]. -/
def outlierFilter (t : String) (d : Frame) : Except String Frame :=
  (colE d t).map fun tc => filterRows d (outlierMask tc)

/-- Stage 3: outlier removal, only in regression mode. -/
def outlierStage (classification : Bool) (t : String) (d : Frame) : Except String Frame :=
  if classification then .ok d else outlierFilter t d

/-- The transformed target column: np.log10(target + 1e-6) pointwise, with a
missing input staying missing and a non-positive argument yielding a
non-value (np.log10 of a negative float is NaN). -/
def logCol (flog : ℚ → ℚ) (tc : List Val) : List Val :=
  tc.map fun o => o.bind fun x =>
    if 0 < x + 1/1000000 then some (flog (x + 1/1000000)) else none

/-- Column assignment data[n] = v: overwrite in place when the name exists,
append at the end otherwise. -/
def setCol (d : Frame) (n : String) (v : List Val) : Frame :=
  if n ∈ names d then d.map fun c => if c.1 = n then (n, v) else c
  else d ++ [(n, v)]

/-- Stage 4: target transform.  In regression mode with log_transform the
column log_<t> is created and becomes the designated target name; otherwise
the original target name is used unchanged. -/
def transformStage (flog : ℚ → ℚ) (log_transform classification : Bool) (t : String)
    (d : Frame) : Except String (Frame × String) :=
  if log_transform && !classification then
    (colE d t).map fun tc => (setCol d ("log_" ++ t) (logCol flog tc), "log_" ++ t)
  else .ok (d, t)

/-- Stage 5: feature-frame assembly.  drop_cols is every column among
[t, log_<t>] that is present and differs from the designated target name;
the designated target itself is therefore never dropped here. -/
def featureAssembly (t tn : String) (d : Frame) : Frame :=
  dropCols d (([t, "log_" ++ t]).filter fun c => decide (c ∈ names d) && decide (c ≠ tn))

/-- Stage 6: drop the features with an exactly-zero standard deviation, then
the features containing a missing value. -/
def cleanupStage (F : Frame) : Frame :=
  (F.filter fun c => !stdIsZero c.2).filter fun c => !hasNoneCol c.2

/-- Stage 7 body: keep the features whose absolute correlation with the
designated target is defined and strictly greater than m
(corrs = corrwith(target).abs().dropna(); corrs[corrs > m]). -/
def selectByTargetCorr (m : ℚ) (tc : List Val) (F : Frame) : Frame :=
  F.filter fun c => absCorrGTb c.2 tc m

/-- Stage 7: target-correlation filtering, only in regression mode. -/
def targetCorrStage (classification : Bool) (m : ℚ) (tn : String) (d : Frame)
    (F : Frame) : Except String Frame :=
  if classification then .ok F
  else (colE d tn).map fun tc => selectByTargetCorr m tc F

/-- Stage 8 worker.  prev carries every column already passed (dropped or
not): the code decides the fate of column j against the full upper-triangle
column prefix, not only against surviving columns. -/
def pruneAux (thr : ℚ) (prev : List Column) : List Column → List Column
  | [] => []
  | c :: rest =>
      if prev.any fun p => absCorrGTb p.2 c.2 thr then pruneAux thr (prev ++ [c]) rest
      else c :: pruneAux thr (prev ++ [c]) rest

/-- Stage 8: pairwise-correlation pruning; column j is dropped exactly when
some earlier column i has |corr(i, j)| > thr. -/
def prunePairwise (thr : ℚ) (F : Frame) : Frame := pruneAux thr [] F

/-- Worker for duplicate-name removal keeping the first occurrence. -/
def dedupAux (seen : List String) : Frame → Frame
  | [] => []
  | c :: r => if c.1 ∈ seen then dedupAux seen r else c :: dedupAux (c.1 :: seen) r

/-- Final duplicate-name removal: loc[:, ~columns.duplicated()]. -/
def dedupCols (d : Frame) : Frame := dedupAux [] d

/-- Stages 1-5 of the pipeline; returns the working frame, the designated
target name and the feature frame that enters the cleanup and selection
stages. -/
def featureEntryFrame (flog : ℚ → ℚ) (d : Frame) (t : String) (k : List String)
    (lt cls : Bool) : Except String (Frame × String × Frame) :=
  (outlierStage cls t (dropKeysStage (dropConstant d) k t)).bind fun d2 =>
    (transformStage flog lt cls t d2).map fun dt => (dt.1, dt.2, featureAssembly t dt.2 dt.1)

/-- Stages 1-8; returns the working frame, the designated target name and the
fully selected and pruned feature frame. -/
def prepCore (flog : ℚ → ℚ) (d : Frame) (t : String) (k : List String) (lt : Bool)
    (ct mt : ℚ) (cls : Bool) : Except String (Frame × String × Frame) :=
  (featureEntryFrame flog d t k lt cls).bind fun x =>
    (targetCorrStage cls mt x.2.1 x.1 (cleanupStage x.2.2)).map fun F1 =>
      (x.1, x.2.1, prunePairwise ct F1)

/-- The whole pipeline prepare_dataset: stages 1-8, then the concatenation of
the surviving features with the designated target column and the removal of
duplicate-named columns keeping the first occurrence. -/
def prepare_dataset (flog : ℚ → ℚ) (dataset : Frame) (target_col : String)
    (key_cols : List String) (log_transform : Bool) (corr_threshold min_corr_target : ℚ)
    (classification : Bool) : Except String Frame :=
  (prepCore flog dataset target_col key_cols log_transform corr_threshold
      min_corr_target classification).bind fun x =>
    (colE x.1 x.2.1).map fun tc => dedupCols (x.2.2 ++ [(x.2.1, tc)])

/-- Concrete stand-in for log10, used where a statement does not depend on
the logarithm values. -/
def flogZero : ℚ → ℚ := fun _ => 0

open scoped Classical in
/-- Modelled from the spec (stage 7 wording): keep exactly the features whose
real absolute Pearson correlation with the target is defined and strictly
greater than m.  This definition follows the words of the specification and
is compared with the source-side selectByTargetCorr. -/
noncomputable def selectByTargetCorrSpec (m : ℚ) (tc : List Val) (F : Frame) : Frame :=
  F.filter fun c => decide (corrDefinedP c.2 tc ∧ (m : ℝ) < |corrRe c.2 tc|)

open scoped Classical in
/-- Modelled from the spec (stage 8 wording): mark column j for removal when
some earlier column i has a real absolute correlation above the threshold.
This definition follows the words of the specification and is compared with
the source-side pruneAux. -/
noncomputable def pruneSpecAux (thr : ℚ) (prev : List Column) : List Column → List Column
  | [] => []
  | c :: rest =>
      if ∃ p ∈ prev, corrDefinedP p.2 c.2 ∧ (thr : ℝ) < |corrRe p.2 c.2| then
        pruneSpecAux thr (prev ++ [c]) rest
      else c :: pruneSpecAux thr (prev ++ [c]) rest

/-- Specification-side pairwise pruning. -/
noncomputable def prunePairwiseSpec (thr : ℚ) (F : Frame) : Frame := pruneSpecAux thr [] F

/-- All columns of the frame have the same number of rows. -/
def WellF (d : Frame) (n : Nat) : Prop := ∀ c ∈ d, c.2.length = n

theorem exceptBind_ok {α β : Type} {e : Except String α} {f : α → Except String β} {b : β} :
    e.bind f = .ok b ↔ ∃ a, e = .ok a ∧ f a = .ok b := by
  cases e with
  | error m => simp [Except.bind]
  | ok a => simp [Except.bind]

theorem exceptMap_ok {α β : Type} {e : Except String α} {f : α → β} {b : β} :
    Except.map f e = .ok b ↔ ∃ a, e = .ok a ∧ f a = b := by
  cases e with
  | error m => simp [Except.map]
  | ok a => simp [Except.map]

theorem colFind_mem {d : Frame} {n : String} {v : List Val} (h : colFind d n = some v) :
    (n, v) ∈ d := by
  unfold colFind at h
  obtain ⟨c, hc, hcv⟩ := Option.map_eq_some'.1 h
  have hp := List.find?_some hc
  have hm := List.mem_of_find?_eq_some hc
  simp only [decide_eq_true_eq] at hp
  obtain ⟨c1, c2⟩ := c
  simp only at hp hcv
  subst hp; subst hcv; exact hm

theorem colFind_of_mem_nodup {d : Frame} {n : String} {v : List Val}
    (hnd : (names d).Nodup) (h : (n, v) ∈ d) : colFind d n = some v := by
  induction d with
  | nil => simp at h
  | cons c r ih =>
    simp only [names, List.map_cons, List.nodup_cons] at hnd
    rcases List.mem_cons.1 h with h1 | h1
    · subst h1; simp [colFind, List.find?]
    · have hne : ¬ c.1 = n := by
        intro he
        exact hnd.1 (he ▸ (List.mem_map.2 ⟨(n, v), h1, rfl⟩))
      simpa [colFind, List.find?, hne] using ih hnd.2 h1

theorem colE_ok_iff {d : Frame} {n : String} {v : List Val} :
    colE d n = .ok v ↔ colFind d n = some v := by
  unfold colE
  cases h : colFind d n <;> simp

theorem colE_error_iff {d : Frame} {n : String} {m : String} :
    colE d n = .error m ↔ colFind d n = none ∧ m = "KeyError: " ++ n := by
  unfold colE
  cases h : colFind d n with
  | some v => simp
  | none => simp [eq_comm]

theorem sumSqDiff (x : ℚ) (l : List ℚ) :
    (l.map fun w => (x - w) ^ 2).sum
      = (l.length : ℚ) * x ^ 2 - 2 * x * l.sum + (l.map fun w => w ^ 2).sum := by
  induction l with
  | nil => simp
  | cons y r ih =>
    simp only [List.map_cons, List.sum_cons, List.length_cons, ih]
    push_cast
    ring

theorem svar_cons (x : ℚ) (l : List ℚ) :
    svarOf (x :: l) = (l.map fun w => (x - w) ^ 2).sum + svarOf l := by
  simp only [svarOf, List.map_cons, List.sum_cons, List.length_cons, sumSqDiff]
  push_cast
  ring

theorem sqDiffSum_nonneg (x : ℚ) (l : List ℚ) : 0 ≤ (l.map fun w => (x - w) ^ 2).sum := by
  apply List.sum_nonneg
  intro a ha
  obtain ⟨w, _, rfl⟩ := List.mem_map.1 ha
  positivity

theorem svar_nonneg (l : List ℚ) : 0 ≤ svarOf l := by
  induction l with
  | nil => simp [svarOf]
  | cons x r ih =>
    rw [svar_cons]
    have := sqDiffSum_nonneg x r
    linarith

theorem sum_nonneg_eq_zero {l : List ℚ} (h0 : ∀ a ∈ l, 0 ≤ a) (h : l.sum = 0) :
    ∀ a ∈ l, a = 0 := by
  induction l with
  | nil => simp
  | cons x r ih =>
    have hx : 0 ≤ x := h0 x (by simp)
    have hr : 0 ≤ r.sum := List.sum_nonneg fun a ha => h0 a (by simp [ha])
    simp only [List.sum_cons] at h
    have hx0 : x = 0 := by linarith
    have hr0 : r.sum = 0 := by linarith
    intro a ha
    rcases List.mem_cons.1 ha with h1 | h1
    · exact h1 ▸ hx0
    · exact ih (fun a ha => h0 a (by simp [ha])) hr0 a h1

theorem svar_eq_zero_pairs {l : List ℚ} (h : svarOf l = 0) : ∀ a ∈ l, ∀ b ∈ l, a = b := by
  induction l with
  | nil => simp
  | cons x r ih =>
    rw [svar_cons] at h
    have h1 := sqDiffSum_nonneg x r
    have h2 := svar_nonneg r
    have hs1 : (r.map fun w => (x - w) ^ 2).sum = 0 := by linarith
    have hs2 : svarOf r = 0 := by linarith
    have hx : ∀ w ∈ r, x = w := by
      intro w hw
      have hmem : (x - w) ^ 2 ∈ r.map fun w => (x - w) ^ 2 :=
        List.mem_map_of_mem _ hw
      have hz : (x - w) ^ 2 = 0 :=
        sum_nonneg_eq_zero (fun a ha => by
          obtain ⟨u, _, rfl⟩ := List.mem_map.1 ha; positivity) hs1 _ hmem
      have := (pow_eq_zero_iff (two_ne_zero)).1 hz
      linarith
    intro a ha b hb
    rcases List.mem_cons.1 ha with h3 | h3 <;> rcases List.mem_cons.1 hb with h4 | h4
    · subst h3; subst h4; rfl
    · subst h3; exact hx b h4
    · subst h4; exact (hx a h3).symm
    · exact ih hs2 a h3 b h4

theorem dedup_length_one {l : List ℚ} (hne : l ≠ []) (h : ∀ a ∈ l, ∀ b ∈ l, a = b) :
    l.dedup.length = 1 := by
  induction l with
  | nil => simp at hne
  | cons x r ih =>
    cases r with
    | nil => simp
    | cons y s =>
      have hxy : x = y := h x (by simp) y (by simp)
      have hxm : x ∈ y :: s := by simp [hxy]
      rw [List.dedup_cons_of_mem hxm]
      exact ih (by simp) fun a ha b hb => h a (by simp [ha]) b (by simp [hb])

theorem stdIsZero_nunique {c : List Val} (h : stdIsZero c = true) : nuniqueCol c = 1 := by
  unfold stdIsZero at h
  simp only [Bool.and_eq_true, decide_eq_true_eq] at h
  obtain ⟨h2, hz⟩ := h
  unfold nuniqueCol
  apply dedup_length_one
  · intro hc
    rw [hc] at h2
    simp at h2
  · exact svar_eq_zero_pairs hz

theorem mem_dedupAux {seen : List String} {l : Frame} {x : Column}
    (h : x ∈ dedupAux seen l) : x ∈ l := by
  induction l generalizing seen with
  | nil => simp [dedupAux] at h
  | cons c r ih =>
    by_cases hc : c.1 ∈ seen
    · simp only [dedupAux, if_pos hc] at h
      exact List.mem_cons_of_mem _ (ih h)
    · simp only [dedupAux, if_neg hc, List.mem_cons] at h
      rcases h with h | h
      · exact h ▸ List.mem_cons_self _ _
      · exact List.mem_cons_of_mem _ (ih h)

theorem names_dedupAux_disjoint {seen : List String} {l : Frame} :
    ∀ x ∈ names (dedupAux seen l), x ∉ seen := by
  induction l generalizing seen with
  | nil => simp [dedupAux, names]
  | cons c r ih =>
    intro x hx
    by_cases hc : c.1 ∈ seen
    · simp only [dedupAux, if_pos hc] at hx
      exact ih x hx
    · simp only [dedupAux, if_neg hc, names, List.map_cons, List.mem_cons] at hx
      rcases hx with h | h
      · exact h ▸ hc
      · intro hs
        exact ih x h (List.mem_cons_of_mem _ hs)

theorem nodup_names_dedupAux {seen : List String} {l : Frame} :
    (names (dedupAux seen l)).Nodup := by
  induction l generalizing seen with
  | nil => simp [dedupAux, names]
  | cons c r ih =>
    by_cases hc : c.1 ∈ seen
    · simpa only [dedupAux, if_pos hc] using ih
    · simp only [dedupAux, if_neg hc, names, List.map_cons, List.nodup_cons]
      refine ⟨?_, ih⟩
      intro hmem
      exact names_dedupAux_disjoint c.1 hmem (List.mem_cons_self _ _)

theorem mem_names_dedupAux {x : String} {seen : List String} {l : Frame}
    (hx : x ∈ names l) (hs : x ∉ seen) : x ∈ names (dedupAux seen l) := by
  induction l generalizing seen with
  | nil => simp [names] at hx
  | cons c r ih =>
    simp only [names, List.map_cons, List.mem_cons] at hx
    by_cases hc : c.1 ∈ seen
    · have hxr : x ∈ names r := by
        rcases hx with h | h
        · exact absurd (h ▸ hc) hs
        · exact h
      simpa only [dedupAux, if_pos hc] using ih hxr hs
    · simp only [dedupAux, if_neg hc, names, List.map_cons, List.mem_cons]
      rcases hx with h | h
      · exact Or.inl h
      · by_cases hxc : x = c.1
        · exact Or.inl hxc
        · exact Or.inr (ih h (by simp [hs, hxc]))

theorem dedupAux_eq_self {seen : List String} {l : Frame}
    (hnd : (names l).Nodup) (hs : ∀ a ∈ names l, a ∉ seen) : dedupAux seen l = l := by
  induction l generalizing seen with
  | nil => simp [dedupAux]
  | cons c r ih =>
    simp only [names, List.map_cons, List.nodup_cons] at hnd
    have hc : c.1 ∉ seen := hs c.1 (by simp [names])
    rw [dedupAux, if_neg hc]
    congr 1
    apply ih hnd.2
    intro a ha
    simp only [List.mem_cons]
    push_neg
    refine ⟨?_, hs a (by simp only [names, List.map_cons, List.mem_cons]; exact Or.inr ha)⟩
    intro he
    exact hnd.1 (he ▸ ha)

theorem dedupAux_append_one {seen : List String} {l : Frame} (x : Column)
    (hnd : (names l).Nodup) (hs : ∀ a ∈ names l, a ∉ seen) :
    dedupAux seen (l ++ [x]) =
      if x.1 ∈ seen ∨ x.1 ∈ names l then l else l ++ [x] := by
  induction l generalizing seen with
  | nil =>
    simp only [List.nil_append, names, List.map_nil, List.not_mem_nil, or_false]
    by_cases hx : x.1 ∈ seen <;> simp [dedupAux, hx]
  | cons c r ih =>
    simp only [names, List.map_cons, List.nodup_cons] at hnd
    have hc : c.1 ∉ seen := hs c.1 (by simp [names])
    have hs2 : ∀ a ∈ names r, a ∉ c.1 :: seen := by
      intro a ha
      simp only [List.mem_cons]
      push_neg
      refine ⟨?_, hs a (by simp only [names, List.map_cons, List.mem_cons]; exact Or.inr ha)⟩
      intro he
      exact hnd.1 (he ▸ ha)
    rw [List.cons_append, dedupAux, if_neg hc, ih hnd.2 hs2]
    have hcond : (x.1 ∈ c.1 :: seen ∨ x.1 ∈ names r)
        ↔ (x.1 ∈ seen ∨ x.1 ∈ names (c :: r)) := by
      simp only [List.mem_cons, names, List.map_cons]
      tauto
    rw [if_congr hcond rfl rfl]
    by_cases h : x.1 ∈ seen ∨ x.1 ∈ names (c :: r)
    · rw [if_pos h, if_pos h]
    · rw [if_neg h, if_neg h]

theorem dedupCols_self {l : Frame} (hnd : (names l).Nodup) : dedupCols l = l :=
  dedupAux_eq_self hnd (by simp)

theorem dedupCols_append_one {l : Frame} (x : Column) (hnd : (names l).Nodup) :
    dedupCols (l ++ [x]) = if x.1 ∈ names l then l else l ++ [x] := by
  unfold dedupCols
  rw [dedupAux_append_one x hnd (by simp)]
  simp

theorem vals_cons_some (a : ℚ) (r : List Val) : vals (some a :: r) = a :: vals r := by
  simp [vals]

theorem vals_length_of_noNone {c : List Val} (h : hasNoneCol c = false) :
    (vals c).length = c.length := by
  induction c with
  | nil => simp [vals]
  | cons o r ih =>
    simp only [hasNoneCol, List.any_cons, Bool.or_eq_false_iff] at h
    cases o with
    | none => simp [Option.isNone] at h
    | some a =>
      have hr : hasNoneCol r = false := h.2
      rw [vals_cons_some, List.length_cons, List.length_cons, ih hr]

theorem pairedObs_noNone {xs : List Val} :
    ∀ {ys : List Val}, hasNoneCol xs = false → hasNoneCol ys = false →
      pairedObs xs ys = (vals xs).zip (vals ys) := by
  induction xs with
  | nil => intro ys _ _; simp [pairedObs, vals]
  | cons x xr ih =>
    intro ys hx hy
    cases ys with
    | nil => simp [pairedObs, vals]
    | cons y yr =>
      simp only [hasNoneCol, List.any_cons, Bool.or_eq_false_iff] at hx hy
      cases x with
      | none => simp [Option.isNone] at hx
      | some a =>
        cases y with
        | none => simp [Option.isNone] at hy
        | some b =>
          have := @ih yr hx.2 hy.2
          simp only [pairedObs, List.zip_cons_cons, List.filterMap_cons] at this ⊢
          simp only [Option.bind_some, Option.map_some']
          rw [vals_cons_some, vals_cons_some, List.zip_cons_cons]
          exact congrArg _ this

theorem corrDefined_of_cols {xs ys : List Val} (hlen : xs.length = ys.length)
    (hx : hasNoneCol xs = false) (hy : hasNoneCol ys = false)
    (hvx : 0 < svarOf (vals xs)) (hvy : 0 < svarOf (vals ys)) :
    corrDefinedP xs ys := by
  have hpz := pairedObs_noNone hx hy
  have hlv : (vals xs).length = (vals ys).length := by
    rw [vals_length_of_noNone hx, vals_length_of_noNone hy, hlen]
  have h1 : ((vals xs).zip (vals ys)).map Prod.fst = vals xs :=
    List.map_fst_zip _ _ (le_of_eq hlv)
  have h2 : ((vals xs).zip (vals ys)).map Prod.snd = vals ys :=
    List.map_snd_zip _ _ (ge_of_eq hlv)
  constructor
  · rw [pSxx, hpz, h1]; exact hvx
  · rw [pSyy, hpz, h2]; exact hvy

theorem corrDefinedb_iff {xs ys : List Val} :
    corrDefinedb xs ys = true ↔ corrDefinedP xs ys := by
  simp [corrDefinedb, corrDefinedP]

theorem absRatDiv_sqrt_gt {a b c t : ℚ} (hb : 0 < b) (hc : 0 < c) :
    (t : ℝ) < |(a : ℝ) / Real.sqrt ((b : ℝ) * (c : ℝ))| ↔ (t < 0 ∨ t ^ 2 * b * c < a ^ 2) := by
  have hbc : (0 : ℝ) < (b : ℝ) * (c : ℝ) := by
    have hb' : (0 : ℝ) < (b : ℝ) := by exact_mod_cast hb
    have hc' : (0 : ℝ) < (c : ℝ) := by exact_mod_cast hc
    positivity
  have hs : 0 < Real.sqrt ((b : ℝ) * (c : ℝ)) := Real.sqrt_pos.2 hbc
  have hs2 : Real.sqrt ((b : ℝ) * (c : ℝ)) ^ 2 = (b : ℝ) * (c : ℝ) := Real.sq_sqrt hbc.le
  rw [abs_div, abs_of_pos hs, lt_div_iff₀ hs]
  constructor
  · intro h
    by_cases ht : t < 0
    · exact Or.inl ht
    · push_neg at ht
      right
      have ht' : (0 : ℝ) ≤ (t : ℝ) := by exact_mod_cast ht
      have h2 : ((t : ℝ) * Real.sqrt ((b : ℝ) * (c : ℝ))) ^ 2 < |(a : ℝ)| ^ 2 := by
        have hnn : 0 ≤ (t : ℝ) * Real.sqrt ((b : ℝ) * (c : ℝ)) := by positivity
        exact pow_lt_pow_left₀ h hnn (by norm_num)
      rw [mul_pow, hs2, sq_abs] at h2
      have h3 : ((t ^ 2 * (b * c) : ℚ) : ℝ) < ((a ^ 2 : ℚ) : ℝ) := by push_cast; linarith [h2]
      have h4 : t ^ 2 * (b * c) < a ^ 2 := by exact_mod_cast h3
      linarith
  · intro h
    rcases h with ht | h2
    · have ht' : (t : ℝ) < 0 := by exact_mod_cast ht
      have : (t : ℝ) * Real.sqrt ((b : ℝ) * (c : ℝ)) < 0 := mul_neg_of_neg_of_pos ht' hs
      exact lt_of_lt_of_le this (abs_nonneg _)
    · have h2a : t ^ 2 * (b * c) < a ^ 2 := by linarith
      have h2' : (t : ℝ) ^ 2 * ((b : ℝ) * (c : ℝ)) < (a : ℝ) ^ 2 := by exact_mod_cast h2a
      by_cases ht : (t : ℝ) < 0
      · have : (t : ℝ) * Real.sqrt ((b : ℝ) * (c : ℝ)) < 0 := mul_neg_of_neg_of_pos ht hs
        exact lt_of_lt_of_le this (abs_nonneg _)
      · push_neg at ht
        have hnn : 0 ≤ (t : ℝ) * Real.sqrt ((b : ℝ) * (c : ℝ)) := by positivity
        by_contra hcontra
        push_neg at hcontra
        have : |(a : ℝ)| ^ 2 ≤ ((t : ℝ) * Real.sqrt ((b : ℝ) * (c : ℝ))) ^ 2 :=
          pow_le_pow_left₀ (abs_nonneg _) hcontra 2
        rw [mul_pow, hs2, sq_abs] at this
        linarith

theorem absCorrGTb_iff_real {xs ys : List Val} {t : ℚ} :
    absCorrGTb xs ys t = true ↔ corrDefinedP xs ys ∧ (t : ℝ) < |corrRe xs ys| := by
  unfold absCorrGTb corrRe
  rw [Bool.and_eq_true, corrDefinedb_iff]
  constructor
  · rintro ⟨⟨hb, hc⟩, h2⟩
    refine ⟨⟨hb, hc⟩, ?_⟩
    rw [absRatDiv_sqrt_gt hb hc]
    simpa using h2
  · rintro ⟨⟨hb, hc⟩, h2⟩
    refine ⟨⟨hb, hc⟩, ?_⟩
    rw [absRatDiv_sqrt_gt hb hc] at h2
    simpa using h2

theorem absCorrLE_of_not_GT {xs ys : List Val} {t : ℚ} (hd : corrDefinedP xs ys)
    (_ht : 0 ≤ t) (h : absCorrGTb xs ys t = false) : |corrRe xs ys| ≤ (t : ℝ) := by
  by_contra hcontra
  push_neg at hcontra
  have : absCorrGTb xs ys t = true := absCorrGTb_iff_real.2 ⟨hd, hcontra⟩
  rw [h] at this
  exact Bool.false_ne_true this

theorem pruneAux_mem {thr : ℚ} {l : List Column} {x : Column} :
    ∀ {prev : List Column}, x ∈ pruneAux thr prev l → x ∈ l := by
  induction l with
  | nil => intro prev h; simp [pruneAux] at h
  | cons c rest ih =>
    intro prev h
    by_cases hc : prev.any (fun p => absCorrGTb p.2 c.2 thr) = true
    · rw [pruneAux, if_pos hc] at h
      exact List.mem_cons_of_mem _ (ih h)
    · rw [pruneAux, if_neg hc] at h
      rcases List.mem_cons.1 h with h1 | h1
      · exact h1 ▸ List.mem_cons_self _ _
      · exact List.mem_cons_of_mem _ (ih h1)

theorem pruneAux_prev_clean {thr : ℚ} {l : List Column} :
    ∀ {prev : List Column} {p x : Column}, p ∈ prev → x ∈ pruneAux thr prev l →
      absCorrGTb p.2 x.2 thr = false := by
  induction l with
  | nil => intro prev p x _ h; simp [pruneAux] at h
  | cons c rest ih =>
    intro prev p x hp h
    by_cases hc : prev.any (fun q => absCorrGTb q.2 c.2 thr) = true
    · rw [pruneAux, if_pos hc] at h
      exact ih (List.mem_append_left _ hp) h
    · rw [pruneAux, if_neg hc] at h
      rcases List.mem_cons.1 h with h1 | h1
      · subst h1
        have := List.any_eq_false.1 (Bool.eq_false_iff.2 hc) p hp
        exact Bool.eq_false_iff.2 this
      · exact ih (List.mem_append_left _ hp) h1

theorem pruneAux_pairwise {thr : ℚ} {l : List Column} :
    ∀ {prev : List Column},
      List.Pairwise (fun a b => absCorrGTb a.2 b.2 thr = false) (pruneAux thr prev l) := by
  induction l with
  | nil => intro prev; simp [pruneAux]
  | cons c rest ih =>
    intro prev
    by_cases hc : prev.any (fun q => absCorrGTb q.2 c.2 thr) = true
    · rw [pruneAux, if_pos hc]; exact ih
    · rw [pruneAux, if_neg hc]
      refine List.Pairwise.cons ?_ ih
      intro b hb
      exact pruneAux_prev_clean (List.mem_append_right _ (List.mem_singleton_self c)) hb

theorem pruneAux_eq_self {thr : ℚ} {l : List Column} :
    ∀ {prev : List Column},
      List.Pairwise (fun a b => absCorrGTb a.2 b.2 thr = false) l →
      (∀ p ∈ prev, ∀ x ∈ l, absCorrGTb p.2 x.2 thr = false) →
      pruneAux thr prev l = l := by
  induction l with
  | nil => intro prev _ _; simp [pruneAux]
  | cons c rest ih =>
    intro prev hpw hprev
    have hc : prev.any (fun q => absCorrGTb q.2 c.2 thr) = false :=
      List.any_eq_false.2 fun p hp => by
        rw [hprev p hp c (List.mem_cons_self _ _)]; simp
    rw [pruneAux, if_neg (by rw [hc]; simp)]
    congr 1
    rcases List.pairwise_cons.1 hpw with ⟨hhead, htail⟩
    apply ih htail
    intro p hp x hx
    rcases List.mem_append.1 hp with h1 | h1
    · exact hprev p h1 x (List.mem_cons_of_mem _ hx)
    · rw [List.mem_singleton.1 h1]
      exact hhead x hx

theorem pruneAux_append_one {thr : ℚ} {l : List Column} (x : Column) :
    ∀ {prev : List Column},
      List.Pairwise (fun a b => absCorrGTb a.2 b.2 thr = false) l →
      (∀ p ∈ prev, ∀ y ∈ l, absCorrGTb p.2 y.2 thr = false) →
      pruneAux thr prev (l ++ [x]) = l ++ [x] ∨ pruneAux thr prev (l ++ [x]) = l := by
  induction l with
  | nil =>
    intro prev _ _
    by_cases hc : prev.any (fun q => absCorrGTb q.2 x.2 thr) = true
    · right; rw [List.nil_append, pruneAux, if_pos hc, pruneAux]
    · left; rw [List.nil_append, pruneAux, if_neg hc, pruneAux]
  | cons c rest ih =>
    intro prev hpw hprev
    have hc : prev.any (fun q => absCorrGTb q.2 c.2 thr) = false :=
      List.any_eq_false.2 fun p hp => by
        rw [hprev p hp c (List.mem_cons_self _ _)]; simp
    rw [List.cons_append, pruneAux, if_neg (by rw [hc]; simp)]
    rcases List.pairwise_cons.1 hpw with ⟨hhead, htail⟩
    have hprev2 : ∀ p ∈ prev ++ [c], ∀ y ∈ rest, absCorrGTb p.2 y.2 thr = false := by
      intro p hp y hy
      rcases List.mem_append.1 hp with h1 | h1
      · exact hprev p h1 y (List.mem_cons_of_mem _ hy)
      · rw [List.mem_singleton.1 h1]
        exact hhead y hy
    rcases ih htail hprev2 with h | h
    · left; rw [h]
    · right; rw [h]

theorem pruneSpecAux_eq {thr : ℚ} {l : List Column} :
    ∀ {prev : List Column}, pruneSpecAux thr prev l = pruneAux thr prev l := by
  induction l with
  | nil => intro prev; rfl
  | cons c rest ih =>
    intro prev
    classical
    have hcond : (∃ p ∈ prev, corrDefinedP p.2 c.2 ∧ (thr : ℝ) < |corrRe p.2 c.2|)
        ↔ (prev.any fun p => absCorrGTb p.2 c.2 thr) = true := by
      rw [List.any_eq_true]
      constructor
      · rintro ⟨p, hp, hd⟩
        exact ⟨p, hp, absCorrGTb_iff_real.2 hd⟩
      · rintro ⟨p, hp, hd⟩
        exact ⟨p, hp, absCorrGTb_iff_real.1 hd⟩
    rw [pruneSpecAux, pruneAux, if_congr hcond rfl rfl]
    by_cases h : (prev.any fun p => absCorrGTb p.2 c.2 thr) = true
    · rw [if_pos h, if_pos h, ih]
    · rw [if_neg h, if_neg h, ih]

theorem prunePairwiseSpec_eq (thr : ℚ) (F : Frame) :
    prunePairwiseSpec thr F = prunePairwise thr F := pruneSpecAux_eq

theorem WellF_of_sub {d e : Frame} {n : Nat} (hsub : ∀ c ∈ e, c ∈ d) (h : WellF d n) :
    WellF e n := fun c hc => h c (hsub c hc)

theorem WellF_filter {d : Frame} {n : Nat} (p : Column → Bool) (h : WellF d n) :
    WellF (d.filter p) n := WellF_of_sub (fun _ hc => List.mem_of_mem_filter hc) h

theorem applyMask_length {c : List Val} :
    ∀ {mask : List Bool}, c.length = mask.length →
      (applyMask mask c).length = (mask.filter id).length := by
  induction c with
  | nil =>
    intro mask h
    have : mask = [] := List.eq_nil_of_length_eq_zero h.symm
    subst this
    simp [applyMask]
  | cons v cr ih =>
    intro mask h
    cases mask with
    | nil => simp at h
    | cons m mr =>
      simp only [List.length_cons, Nat.succ.injEq] at h
      cases m with
      | true =>
        simp only [applyMask, List.zip_cons_cons, List.filterMap_cons, if_pos] at *
        simp only [List.filter_cons, id]
        simpa using ih h
      | false =>
        simp only [applyMask, List.zip_cons_cons, List.filterMap_cons] at *
        simp only [List.filter_cons, id]
        simpa using ih h

theorem WellF_filterRows {d : Frame} {n : Nat} {mask : List Bool}
    (h : WellF d n) (hm : mask.length = n) :
    WellF (filterRows d mask) ((mask.filter id).length) := by
  intro c hc
  obtain ⟨c0, hc0, rfl⟩ := List.mem_map.1 hc
  exact applyMask_length (by rw [h c0 hc0, hm])

theorem logCol_length (flog : ℚ → ℚ) (tc : List Val) :
    (logCol flog tc).length = tc.length := List.length_map _ _

theorem WellF_setCol {d : Frame} {n : Nat} {nm : String} {v : List Val}
    (h : WellF d n) (hv : v.length = n) : WellF (setCol d nm v) n := by
  unfold setCol
  by_cases hmem : nm ∈ names d
  · rw [if_pos hmem]
    intro c hc
    obtain ⟨c0, hc0, hce⟩ := List.mem_map.1 hc
    by_cases he : c0.1 = nm
    · rw [if_pos he] at hce
      rw [← hce]
      exact hv
    · rw [if_neg he] at hce
      rw [← hce]
      exact h c0 hc0
  · rw [if_neg hmem]
    intro c hc
    rcases List.mem_append.1 hc with h1 | h1
    · exact h c h1
    · rw [List.mem_singleton.1 h1]
      exact hv

theorem boolEqOfIff {a b : Bool} (h : (a = true) ↔ (b = true)) : a = b := by
  cases a <;> cases b <;> simp_all

theorem names_append (l1 l2 : Frame) : names (l1 ++ l2) = names l1 ++ names l2 :=
  List.map_append _ _ _

theorem mem_names_of_mem {c : Column} {d : Frame} (h : c ∈ d) : c.1 ∈ names d :=
  List.mem_map_of_mem _ h

theorem mem_names_iff {m : String} {d : Frame} : m ∈ names d ↔ ∃ v, (m, v) ∈ d := by
  constructor
  · intro h
    obtain ⟨c, hc, he⟩ := List.mem_map.1 h
    exact ⟨c.2, by rw [← he]; exact hc⟩
  · rintro ⟨v, hv⟩
    exact mem_names_of_mem hv

theorem colFind_none_iff {d : Frame} {n : String} : colFind d n = none ↔ n ∉ names d := by
  unfold colFind
  rw [Option.map_eq_none', List.find?_eq_none]
  constructor
  · intro h hm
    obtain ⟨v, hv⟩ := mem_names_iff.1 hm
    have := h (n, v) hv
    simp at this
  · intro h c hc he
    simp only [decide_eq_true_eq] at he
    exact h (he ▸ mem_names_of_mem hc)

theorem nodup_names_unique {d : Frame} (hnd : (names d).Nodup) {n : String}
    {v w : List Val} (h1 : (n, v) ∈ d) (h2 : (n, w) ∈ d) : v = w := by
  have e1 := colFind_of_mem_nodup hnd h1
  have e2 := colFind_of_mem_nodup hnd h2
  rw [e1] at e2
  exact Option.some_injective _ e2

theorem colE_ok_name_mem {d : Frame} {n : String} {v : List Val}
    (h : colE d n = .ok v) : n ∈ names d :=
  mem_names_of_mem (colFind_mem (colE_ok_iff.1 h))

theorem mem_names_dropCols {d : Frame} {ns : List String} {m : String}
    (h1 : m ∈ names d) (h2 : m ∉ ns) : m ∈ names (dropCols d ns) := by
  obtain ⟨v, hv⟩ := mem_names_iff.1 h1
  refine mem_names_iff.2 ⟨v, ?_⟩
  exact List.mem_filter.2 ⟨hv, by simpa using h2⟩

theorem not_mem_names_dropCols {d : Frame} {ns : List String} {m : String}
    (h : m ∈ ns) : m ∉ names (dropCols d ns) := by
  intro hm
  obtain ⟨v, hv⟩ := mem_names_iff.1 hm
  have := (List.mem_filter.1 hv).2
  simp only [decide_eq_true_eq] at this
  exact this h

theorem logname_ne (t : String) : ("log_" ++ t) ≠ t := by
  intro h
  have hlen := congrArg String.length h
  rw [String.length_append] at hlen
  have h4 : ("log_" : String).length = 4 := rfl
  rw [h4] at hlen
  omega

theorem mem_names_setCol_self {d : Frame} {n : String} {v : List Val} :
    n ∈ names (setCol d n v) := by
  unfold setCol
  by_cases hmem : n ∈ names d
  · rw [if_pos hmem]
    obtain ⟨w, hw⟩ := mem_names_iff.1 hmem
    apply mem_names_iff.2
    refine ⟨v, List.mem_map.2 ⟨(n, w), hw, ?_⟩⟩
    simp
  · rw [if_neg hmem, names_append]
    simp [names]

theorem mem_names_setCol_of {d : Frame} {n : String} {v : List Val} {m : String}
    (h : m ∈ names d) : m ∈ names (setCol d n v) := by
  unfold setCol
  by_cases hmem : n ∈ names d
  · rw [if_pos hmem]
    obtain ⟨w, hw⟩ := mem_names_iff.1 h
    by_cases he : m = n
    · subst he
      apply mem_names_iff.2
      refine ⟨v, List.mem_map.2 ⟨(m, w), hw, ?_⟩⟩
      simp
    · apply mem_names_iff.2
      refine ⟨w, List.mem_map.2 ⟨(m, w), hw, ?_⟩⟩
      rw [if_neg (by simpa using he)]
  · rw [if_neg hmem, names_append]
    exact List.mem_append_left _ h

theorem dedupAux_append_last {l : Frame} {x : Column} :
    ∀ {seen : List String}, x.1 ∉ seen → x.1 ∉ names l →
      dedupAux seen (l ++ [x]) = dedupAux seen l ++ [x] := by
  induction l with
  | nil =>
    intro seen hx1 _
    simp [dedupAux, hx1]
  | cons c r ih =>
    intro seen hx1 hx2
    simp only [names, List.map_cons, List.mem_cons] at hx2
    push_neg at hx2
    by_cases hc : c.1 ∈ seen
    · simp only [List.cons_append, dedupAux, if_pos hc, List.append_eq]
      exact ih hx1 (by simpa [names] using hx2.2)
    · simp only [List.cons_append, dedupAux, if_neg hc, List.append_eq]
      rw [ih (by simp [hx1, hx2.1]) (by simpa [names] using hx2.2)]

/-- Claim C1, counterexample: on the dataset with single column t = [0,1,2,3],
in regression mode with log transform, the feature frame that enters the
cleanup and selection stages contains the designated target column log_t
itself, contradicting the claim that no feature column equals the target
column. -/
theorem claimC1_counterexample :
    featureEntryFrame flogZero [("t", [some 0, some 1, some 2, some 3])] "t" [] true false
      = .ok ([("t", [some 0, some 1, some 2, some 3]),
              ("log_t", [some 0, some 0, some 0, some 0])], "log_t",
             [("log_t", [some 0, some 0, some 0, some 0])]) ∧
    "log_t" ∈ names [("log_t", [some (0 : ℚ), some 0, some 0, some 0])] :=
  ⟨by decide, by decide⟩

/-- Claim C1, amended: for every successful call, the feature frame entering
the cleanup and selection stages always contains the designated target
column; when a log transform occurred it excludes the original un-transformed
target column (so exactly one target-derived column, the designated target
itself, enters those stages). -/
theorem claimC1_theorem (flog : ℚ → ℚ) (d : Frame) (t : String) (k : List String)
    (lt : Bool) (ct mt : ℚ) (cls : Bool) (out : Frame)
    (h : prepare_dataset flog d t k lt ct mt cls = .ok out) :
    ∃ dw tn Fe, featureEntryFrame flog d t k lt cls = .ok (dw, tn, Fe) ∧
      tn ∈ names Fe ∧
      ((lt && !cls) = true → tn = "log_" ++ t ∧ t ∉ names Fe) := by
  unfold prepare_dataset at h
  obtain ⟨x, hx, hrest⟩ := exceptBind_ok.1 h
  obtain ⟨tc, htc, _⟩ := exceptMap_ok.1 hrest
  unfold prepCore at hx
  obtain ⟨y, hy, hmap⟩ := exceptBind_ok.1 hx
  obtain ⟨F1, _, hxe⟩ := exceptMap_ok.1 hmap
  obtain ⟨dw, tn, Fe⟩ := y
  subst hxe
  simp only at htc
  have hyOrig := hy
  unfold featureEntryFrame at hy
  obtain ⟨d2, hd2, hmap2⟩ := exceptBind_ok.1 hy
  obtain ⟨dt, hdt, hye⟩ := exceptMap_ok.1 hmap2
  obtain ⟨d3, tn'⟩ := dt
  simp only [Prod.mk.injEq] at hye
  obtain ⟨he1, he2, he3⟩ := hye
  subst he1
  subst he2
  rw [← he3] at hyOrig
  refine ⟨d3, tn', featureAssembly t tn' d3, hyOrig, ?_, ?_⟩
  · have htd3 : tn' ∈ names d3 := colE_ok_name_mem htc
    unfold featureAssembly
    apply mem_names_dropCols htd3
    intro hmem
    have h2 := (List.mem_filter.1 hmem).2
    simp only [Bool.and_eq_true, decide_eq_true_eq] at h2
    exact h2.2 rfl
  · intro hcase
    unfold transformStage at hdt
    rw [hcase, if_pos rfl] at hdt
    obtain ⟨tc2, htc2, hde⟩ := exceptMap_ok.1 hdt
    simp only [Prod.mk.injEq] at hde
    obtain ⟨hd3, htn'⟩ := hde
    refine ⟨htn'.symm, ?_⟩
    unfold featureAssembly
    apply not_mem_names_dropCols
    apply List.mem_filter.2
    refine ⟨List.mem_cons_self _ _, ?_⟩
    have htmem : t ∈ names d2 := colE_ok_name_mem htc2
    have htd3 : t ∈ names d3 := by
      rw [← hd3]; exact mem_names_setCol_of htmem
    simp only [Bool.and_eq_true, decide_eq_true_eq]
    refine ⟨htd3, ?_⟩
    intro hh
    rw [← htn'] at hh
    exact (logname_ne t) hh.symm

/-- Claim C1, witness for the amended theorem at a concrete regression input
with log transform. -/
theorem claimC1_witness :
    ∃ dw tn Fe,
      featureEntryFrame flogZero [("t", [some 0, some 1, some 2, some 3])] "t" [] true false
        = .ok (dw, tn, Fe) ∧
      tn ∈ names Fe ∧
      ((true && !false) = true → tn = "log_" ++ "t" ∧ "t" ∉ names Fe) :=
  claimC1_theorem flogZero [("t", [some 0, some 1, some 2, some 3])] "t" [] true
    (85/100) (5/100) false [("log_t", [some 0, some 0, some 0, some 0])] (by decide)

/-- Claim C2: at the classification input with single column t = [1, 2, NaN],
zero feature columns survive the cleanup and selection stages, yet
prepare_dataset raises nothing and returns the frame holding only the target
column, contradicting the claimed ComputationError. -/
theorem claimC2_theorem :
    prepCore flogZero [("t", [some 1, some 2, none])] "t" [] true (85/100) (5/100) true
      = .ok ([("t", [some 1, some 2, none])], "t", []) ∧
    prepare_dataset flogZero [("t", [some 1, some 2, none])] "t" [] true (85/100) (5/100) true
      = .ok [("t", [some 1, some 2, none])] :=
  ⟨by decide, by decide⟩

/-- Claim C3: in regression mode with log transform, the target value -1
makes the logarithm argument negative; the pipeline raises nothing and the
returned frame holds a missing value in the transformed target column,
contradicting the claimed domain error. -/
theorem claimC3_theorem :
    prepare_dataset flogZero [("t", [some (-1), some 0, some 1, some 2])] "t" []
        true (85/100) (5/100) false
      = .ok [("log_t", [none, some 0, some 0, some 0])] ∧
    hasNoneCol [none, some (0 : ℚ), some 0, some 0] = true :=
  ⟨by decide, by decide⟩

/-- Claim C4, counterexample: on the regression input with columns [t, f] and
no log transform, the returned frame is [t, f]; the designated target t is
the first column, not the last one. -/
theorem claimC4_counterexample :
    prepare_dataset flogZero [("t", [some 1, some 2, some 3, some 4]),
        ("f", [some 1, some 2, some 1, some 3])] "t" [] false (85/100) (5/100) false
      = .ok [("t", [some 1, some 2, some 3, some 4]), ("f", [some 1, some 2, some 1, some 3])] ∧
    names [("t", [some (1:ℚ), some 2, some 3, some 4]),
        ("f", [some (1:ℚ), some 2, some 1, some 3])] = ["t", "f"] :=
  ⟨by decide, by decide⟩

/-- Claim C4, amended: for every successful call the returned frame has
unique column names (duplicates collapsed keeping the first occurrence) and
contains exactly one column named after the designated target; that column is
the last column whenever the designated target did not survive the feature
stages (otherwise it keeps its earlier feature-frame position). -/
theorem claimC4_theorem (flog : ℚ → ℚ) (d : Frame) (t : String) (k : List String)
    (lt : Bool) (ct mt : ℚ) (cls : Bool) (dw : Frame) (tn : String) (F : Frame)
    (tc : List Val)
    (h1 : prepCore flog d t k lt ct mt cls = .ok (dw, tn, F))
    (h2 : colE dw tn = .ok tc) :
    prepare_dataset flog d t k lt ct mt cls = .ok (dedupCols (F ++ [(tn, tc)])) ∧
    (names (dedupCols (F ++ [(tn, tc)]))).Nodup ∧
    (names (dedupCols (F ++ [(tn, tc)]))).count tn = 1 ∧
    (tn ∉ names F → (names (dedupCols (F ++ [(tn, tc)]))).getLast? = some tn) := by
  have hpd : prepare_dataset flog d t k lt ct mt cls = .ok (dedupCols (F ++ [(tn, tc)])) := by
    unfold prepare_dataset
    apply exceptBind_ok.2
    exact ⟨(dw, tn, F), h1, exceptMap_ok.2 ⟨tc, h2, rfl⟩⟩
  have hnd : (names (dedupCols (F ++ [(tn, tc)]))).Nodup := nodup_names_dedupAux
  have hmem : tn ∈ names (dedupCols (F ++ [(tn, tc)])) := by
    apply mem_names_dedupAux _ (by simp)
    rw [names_append]
    exact List.mem_append_right _ (by simp [names])
  refine ⟨hpd, hnd, ?_, ?_⟩
  · exact List.count_eq_one_of_mem hnd hmem
  · intro hout
    have : dedupCols (F ++ [(tn, tc)]) = dedupCols F ++ [(tn, tc)] :=
      dedupAux_append_last (by simp) hout
    rw [this, names_append]
    simp [names]

/-- Claim C5: in classification mode the outlier stage passes the frame
through unchanged; in regression mode, with Q1 and Q3 the 25th and 75th
percentiles of the target column computed on the pre-filter data, the stage
retains exactly the rows whose target value v satisfies
Q1 - 1.5*IQR <= v <= Q3 + 1.5*IQR with IQR = Q3 - Q1, bounds inclusive
(a row with a missing target value satisfies neither bound and is dropped). -/
theorem claimC5_theorem (d : Frame) (t : String) (tc : List Val) (q1 q3 : ℚ)
    (hc : colFind d t = some tc)
    (h1 : quantileQ (1/4) tc = some q1)
    (h3 : quantileQ (3/4) tc = some q3) :
    outlierStage true t d = .ok d ∧
    outlierStage false t d =
      .ok (filterRows d (tc.map fun o => o.elim false fun v =>
        decide (q1 - 3/2 * (q3 - q1) ≤ v) && decide (v ≤ q3 + 3/2 * (q3 - q1)))) := by
  refine ⟨rfl, ?_⟩
  have hcE : colE d t = .ok tc := colE_ok_iff.2 hc
  have hfun : (fun (o : Val) =>
      match o with
      | some x => decide (q1 - 3/2 * (q3 - q1) ≤ x) && decide (x ≤ q3 + 3/2 * (q3 - q1))
      | none => false)
      = (fun (o : Val) => o.elim false fun v =>
          decide (q1 - 3/2 * (q3 - q1) ≤ v) && decide (v ≤ q3 + 3/2 * (q3 - q1))) := by
    funext o
    cases o <;> rfl
  have hmask : outlierMask tc = tc.map fun o => o.elim false fun v =>
      decide (q1 - 3/2 * (q3 - q1) ≤ v) && decide (v ≤ q3 + 3/2 * (q3 - q1)) := by
    unfold outlierMask
    rw [h1, h3]
    show List.map _ tc = _
    rw [hfun]
  unfold outlierStage outlierFilter
  rw [if_neg (by simp), hcE]
  show Except.ok (filterRows d (outlierMask tc)) = _
  rw [hmask]

/-- Claim C5, witness at the concrete target column [1, 2, 3, 100] whose
quartiles are 7/4 and 109/4. -/
theorem claimC5_witness :
    outlierStage true "t" [("t", [some 1, some 2, some 3, some 100])]
      = .ok [("t", [some 1, some 2, some 3, some 100])] ∧
    outlierStage false "t" [("t", [some 1, some 2, some 3, some 100])]
      = .ok (filterRows [("t", [some 1, some 2, some 3, some 100])]
          ([some 1, some 2, some 3, some 100].map fun o => o.elim false fun v =>
            decide ((7:ℚ)/4 - 3/2 * (109/4 - 7/4) ≤ v) && decide (v ≤ (109:ℚ)/4 + 3/2 * (109/4 - 7/4)))) :=
  claimC5_theorem [("t", [some 1, some 2, some 3, some 100])] "t"
    [some 1, some 2, some 3, some 100] (7/4) (109/4) (by decide) (by decide) (by decide)

/-- Claim C6: the target-correlation stage is skipped entirely in
classification mode; in regression mode it keeps exactly the feature columns
whose absolute Pearson correlation with the designated target column is
defined and strictly greater than min_corr_target, so a missing correlation
drops the feature.  The boolean source-side selection coincides with the
specification-side selection phrased over the real-valued correlation. -/
theorem claimC6_theorem (m : ℚ) (tn : String) (dw : Frame) (tc : List Val) (F : Frame)
    (h : colFind dw tn = some tc) :
    targetCorrStage true m tn dw F = .ok F ∧
    targetCorrStage false m tn dw F = .ok (selectByTargetCorr m tc F) ∧
    selectByTargetCorr m tc F = selectByTargetCorrSpec m tc F ∧
    (∀ c : Column, c ∈ selectByTargetCorr m tc F ↔
      c ∈ F ∧ corrDefinedP c.2 tc ∧ (m : ℝ) < |corrRe c.2 tc|) := by
  refine ⟨rfl, ?_, ?_, ?_⟩
  · unfold targetCorrStage
    rw [if_neg (by simp), colE_ok_iff.2 h]
    rfl
  · unfold selectByTargetCorr selectByTargetCorrSpec
    apply List.filter_congr
    intro c _
    classical
    apply boolEqOfIff
    rw [absCorrGTb_iff_real, decide_eq_true_eq]
  · intro c
    unfold selectByTargetCorr
    rw [List.mem_filter, absCorrGTb_iff_real]

/-- Claim C6, witness at a concrete two-feature frame: the feature correlated
with the target survives and the constant-correlation conditions evaluate. -/
theorem claimC6_witness :
    targetCorrStage true (5/100) "t" [("t", [some 1, some 2])] [("a", [some 1, some 2])]
      = .ok [("a", [some 1, some 2])] ∧
    targetCorrStage false (5/100) "t" [("t", [some 1, some 2])] [("a", [some 1, some 2])]
      = .ok (selectByTargetCorr (5/100) [some 1, some 2] [("a", [some 1, some 2])]) ∧
    selectByTargetCorr (5/100) [some 1, some 2] [("a", [some 1, some 2])]
      = selectByTargetCorrSpec (5/100) [some 1, some 2] [("a", [some 1, some 2])] ∧
    (∀ c : Column, c ∈ selectByTargetCorr (5/100) [some 1, some 2] [("a", [some 1, some 2])] ↔
      c ∈ [(("a" : String), [some (1:ℚ), some 2])] ∧ corrDefinedP c.2 [some 1, some 2] ∧
        ((5/100 : ℚ) : ℝ) < |corrRe c.2 [some 1, some 2]|) :=
  claimC6_theorem (5/100) "t" [("t", [some 1, some 2])] [some 1, some 2]
    [("a", [some 1, some 2])] (by decide)

/-- Claim C7: the pairwise pruning stage drops column j exactly when some
column i earlier in the current column order has |corr(i, j)| > corr_threshold
(the source-side boolean pruning equals the specification-side pruning over
the real-valued correlation), and consequently, for feature columns that are
missing-free with positive variance (as the cleanup stage guarantees) and a
non-negative threshold, every pair of surviving columns has a defined
correlation of absolute value at most corr_threshold. -/
theorem claimC7_theorem (thr : ℚ) (F : Frame) (n : Nat)
    (hw : WellF F n)
    (hnm : ∀ c ∈ F, hasNoneCol c.2 = false)
    (hv : ∀ c ∈ F, 0 < svarOf (vals c.2))
    (ht : 0 ≤ thr) :
    prunePairwise thr F = prunePairwiseSpec thr F ∧
    List.Pairwise (fun a b : Column => corrDefinedP a.2 b.2 ∧ |corrRe a.2 b.2| ≤ (thr : ℝ))
      (prunePairwise thr F) := by
  refine ⟨(prunePairwiseSpec_eq thr F).symm, ?_⟩
  have hpw : List.Pairwise (fun a b : Column => absCorrGTb a.2 b.2 thr = false)
      (prunePairwise thr F) := pruneAux_pairwise
  refine hpw.imp_of_mem ?_
  intro a b ha hb hR
  have haF : a ∈ F := pruneAux_mem ha
  have hbF : b ∈ F := pruneAux_mem hb
  have hd : corrDefinedP a.2 b.2 :=
    corrDefined_of_cols (by rw [hw a haF, hw b hbF]) (hnm a haF) (hnm b hbF)
      (hv a haF) (hv b hbF)
  exact ⟨hd, absCorrLE_of_not_GT hd ht hR⟩

/-- Claim C7, witness at a concrete two-column frame of two rows. -/
theorem claimC7_witness :
    prunePairwise (85/100) [("a", [some 1, some 2]), ("b", [some 1, some 3])]
      = prunePairwiseSpec (85/100) [("a", [some 1, some 2]), ("b", [some 1, some 3])] ∧
    List.Pairwise (fun a b : Column => corrDefinedP a.2 b.2 ∧ |corrRe a.2 b.2| ≤ ((85/100 : ℚ) : ℝ))
      (prunePairwise (85/100) [("a", [some 1, some 2]), ("b", [some 1, some 3])]) :=
  claimC7_theorem (85/100) [("a", [some 1, some 2]), ("b", [some 1, some 3])] 2
    (by unfold WellF; decide) (by decide) (by decide) (by norm_num)

/-- Claim C10: when the target column exists but is constant (exactly one
distinct defined value), the constant-column stage removes it and the
pipeline fails with the missing-column KeyError at its next access of the
target, in every mode. -/
theorem claimC10_theorem (flog : ℚ → ℚ) (d : Frame) (t : String) (k : List String)
    (lt : Bool) (ct mt : ℚ) (cls : Bool) (c : List Val)
    (hnd : (names d).Nodup) (hc : colFind d t = some c) (h1 : nuniqueCol c = 1) :
    prepare_dataset flog d t k lt ct mt cls = .error ("KeyError: " ++ t) := by
  have hmem : (t, c) ∈ d := colFind_mem hc
  have hdrop : t ∉ names (dropConstant d) := by
    intro hm
    obtain ⟨v, hv⟩ := mem_names_iff.1 hm
    have hvd := List.mem_filter.1 hv
    have hvc : v = c := nodup_names_unique hnd hvd.1 hmem
    have h2 := hvd.2
    simp only [decide_eq_true_eq] at h2
    exact h2 (hvc ▸ h1)
  have hd1 : t ∉ names (dropKeysStage (dropConstant d) k t) := by
    intro hm
    obtain ⟨v, hv⟩ := mem_names_iff.1 hm
    exact hdrop (mem_names_of_mem (List.mem_of_mem_filter hv))
  have hcolE : colE (dropKeysStage (dropConstant d) k t) t = .error ("KeyError: " ++ t) :=
    colE_error_iff.2 ⟨colFind_none_iff.2 hd1, rfl⟩
  cases cls with
  | false =>
    have hstage : outlierStage false t (dropKeysStage (dropConstant d) k t)
        = .error ("KeyError: " ++ t) := by
      unfold outlierStage outlierFilter
      rw [if_neg (by simp), hcolE]
      rfl
    unfold prepare_dataset prepCore featureEntryFrame
    rw [hstage]
    rfl
  | true =>
    have htrans : transformStage flog lt true t (dropKeysStage (dropConstant d) k t)
        = .ok (dropKeysStage (dropConstant d) k t, t) := by
      unfold transformStage
      rw [if_neg (by simp)]
    have hstage : outlierStage true t (dropKeysStage (dropConstant d) k t)
        = .ok (dropKeysStage (dropConstant d) k t) := rfl
    have hentry : featureEntryFrame flog d t k lt true
        = .ok (dropKeysStage (dropConstant d) k t, t,
            featureAssembly t t (dropKeysStage (dropConstant d) k t)) := by
      unfold featureEntryFrame
      rw [hstage]
      show Except.map _ (transformStage flog lt true t (dropKeysStage (dropConstant d) k t)) = _
      rw [htrans]
      rfl
    have hsel : targetCorrStage true mt t (dropKeysStage (dropConstant d) k t)
        (cleanupStage (featureAssembly t t (dropKeysStage (dropConstant d) k t)))
        = .ok (cleanupStage (featureAssembly t t (dropKeysStage (dropConstant d) k t))) := rfl
    have hcore : prepCore flog d t k lt ct mt true
        = .ok (dropKeysStage (dropConstant d) k t, t,
            prunePairwise ct (cleanupStage (featureAssembly t t (dropKeysStage (dropConstant d) k t)))) := by
      unfold prepCore
      rw [hentry]
      simp only [Except.bind]
      rw [hsel]
      rfl
    unfold prepare_dataset
    rw [hcore]
    show Except.map _ (colE (dropKeysStage (dropConstant d) k t) t) = _
    rw [hcolE]
    rfl

/-- Claim C10, witness: a two-column frame whose target column holds the
single value 5 twice; the pipeline fails with the KeyError in regression
mode. -/
theorem claimC10_witness :
    prepare_dataset flogZero [("t", [some 5, some 5]), ("f", [some 1, some 2])] "t" []
        true (85/100) (5/100) false
      = .error ("KeyError: " ++ "t") :=
  claimC10_theorem flogZero [("t", [some 5, some 5]), ("f", [some 1, some 2])] "t" []
    true (85/100) (5/100) false [some 5, some 5] (by decide) (by decide) (by decide)

theorem outlierMask_length (tc : List Val) : (outlierMask tc).length = tc.length := by
  unfold outlierMask
  cases quantileQ (1/4) tc <;> cases quantileQ (3/4) tc <;> simp

/-- Claim C8: for every successful call on a frame whose columns all have n
rows, the returned frame's columns share one row count m with m <= n, and in
classification mode m = n exactly. -/
theorem claimC8_theorem (flog : ℚ → ℚ) (d : Frame) (t : String) (k : List String)
    (lt : Bool) (ct mt : ℚ) (cls : Bool) (out : Frame) (n : Nat)
    (hw : WellF d n)
    (h : prepare_dataset flog d t k lt ct mt cls = .ok out) :
    ∃ m, WellF out m ∧ m ≤ n ∧ (cls = true → m = n) := by
  unfold prepare_dataset at h
  obtain ⟨x, hx, hrest⟩ := exceptBind_ok.1 h
  obtain ⟨tc, htc, hout⟩ := exceptMap_ok.1 hrest
  unfold prepCore at hx
  obtain ⟨y, hy, hmap⟩ := exceptBind_ok.1 hx
  obtain ⟨F1, hF1, hxe⟩ := exceptMap_ok.1 hmap
  obtain ⟨dw, tn, Fe⟩ := y
  subst hxe
  simp only at htc hout hF1
  unfold featureEntryFrame at hy
  obtain ⟨d2, hd2, hmap2⟩ := exceptBind_ok.1 hy
  obtain ⟨dt, hdt, hye⟩ := exceptMap_ok.1 hmap2
  obtain ⟨d3, tn'⟩ := dt
  simp only [Prod.mk.injEq] at hye
  obtain ⟨he1, he2, he3⟩ := hye
  subst he1
  subst he2
  have hwd1 : WellF (dropKeysStage (dropConstant d) k t) n :=
    WellF_filter _ (WellF_filter _ hw)
  have hd2w : ∃ m, WellF d2 m ∧ m ≤ n ∧ (cls = true → m = n) := by
    cases cls with
    | true =>
      have hd2e : d2 = dropKeysStage (dropConstant d) k t := by
        unfold outlierStage at hd2
        rw [if_pos rfl] at hd2
        injection hd2 with hh
        exact hh.symm
      exact ⟨n, hd2e ▸ hwd1, le_refl n, fun _ => rfl⟩
    | false =>
      unfold outlierStage outlierFilter at hd2
      rw [if_neg (by simp)] at hd2
      obtain ⟨tc0, htc0, hd2e⟩ := exceptMap_ok.1 hd2
      have htc0m : tc0.length = n := hwd1 _ (colFind_mem (colE_ok_iff.1 htc0))
      have hmlen : (outlierMask tc0).length = n := by rw [outlierMask_length, htc0m]
      refine ⟨((outlierMask tc0).filter id).length, ?_, ?_, by simp⟩
      · rw [← hd2e]
        exact WellF_filterRows hwd1 hmlen
      · calc ((outlierMask tc0).filter id).length
            ≤ (outlierMask tc0).length := List.length_filter_le _ _
          _ = n := hmlen
  obtain ⟨m, hwd2, hmn, hcls⟩ := hd2w
  have hwd3 : WellF d3 m := by
    by_cases hcase : (lt && !cls) = true
    · unfold transformStage at hdt
      rw [hcase, if_pos rfl] at hdt
      obtain ⟨tc2, htc2, hde⟩ := exceptMap_ok.1 hdt
      simp only [Prod.mk.injEq] at hde
      rw [← hde.1]
      apply WellF_setCol hwd2
      rw [logCol_length]
      exact hwd2 _ (colFind_mem (colE_ok_iff.1 htc2))
    · unfold transformStage at hdt
      rw [if_neg hcase] at hdt
      injection hdt with hh
      simp only [Prod.mk.injEq] at hh
      rw [← hh.1]
      exact hwd2
  have hsubFe : ∀ c ∈ Fe, c ∈ d3 := by
    rw [← he3]
    intro c hc
    exact List.mem_of_mem_filter hc
  have hsubF1 : ∀ c ∈ F1, c ∈ d3 := by
    cases cls with
    | true =>
      unfold targetCorrStage at hF1
      rw [if_pos rfl] at hF1
      injection hF1 with hh
      intro c hc
      rw [← hh] at hc
      exact hsubFe c (List.mem_of_mem_filter (List.mem_of_mem_filter hc))
    | false =>
      unfold targetCorrStage at hF1
      rw [if_neg (by simp)] at hF1
      obtain ⟨tcn, _, he⟩ := exceptMap_ok.1 hF1
      intro c hc
      rw [← he] at hc
      exact hsubFe c
        (List.mem_of_mem_filter (List.mem_of_mem_filter (List.mem_of_mem_filter hc)))
  have htcm : tc.length = m := hwd3 _ (colFind_mem (colE_ok_iff.1 htc))
  refine ⟨m, ?_, hmn, hcls⟩
  rw [← hout]
  intro c hc
  have hc2 := mem_dedupAux hc
  rcases List.mem_append.1 hc2 with h1 | h1
  · exact hwd3 _ (hsubF1 _ (pruneAux_mem h1))
  · rw [List.mem_singleton.1 h1]
    exact htcm

/-- Claim C8, witness: a classification call on a two-row frame keeps the row
count at two. -/
theorem claimC8_witness :
    ∃ m, WellF [("f", [some 1, some 2]), ("t", [some 3, some 4])] m ∧ m ≤ 2 ∧
      (true = true → m = 2) :=
  claimC8_theorem flogZero [("f", [some 1, some 2]), ("t", [some 3, some 4])] "t" []
    true (85/100) (5/100) true [("f", [some 1, some 2]), ("t", [some 3, some 4])] 2
    (by unfold WellF; decide) (by decide)

theorem cleanupStage_eq_self {G : Frame}
    (h1 : ∀ c ∈ G, stdIsZero c.2 = false)
    (h2 : ∀ c ∈ G, hasNoneCol c.2 = false) : cleanupStage G = G := by
  unfold cleanupStage
  have e1 : G.filter (fun c => !stdIsZero c.2) = G :=
    List.filter_eq_self.2 (fun c hc => by rw [h1 c hc]; rfl)
  rw [e1]
  exact List.filter_eq_self.2 (fun c hc => by rw [h2 c hc]; rfl)

theorem cleanupStage_mem {G : Frame} {c : Column} (h : c ∈ cleanupStage G) :
    c ∈ G ∧ stdIsZero c.2 = false ∧ hasNoneCol c.2 = false := by
  unfold cleanupStage at h
  have h2 := List.mem_filter.1 h
  have h1 := List.mem_filter.1 h2.1
  refine ⟨h1.1, ?_, ?_⟩
  · have := h1.2
    cases he : stdIsZero c.2
    · rfl
    · rw [he] at this; simp at this
  · have := h2.2
    cases he : hasNoneCol c.2
    · rfl
    · rw [he] at this; simp at this

theorem cleanupStage_append_one (G : Frame) (x : Column)
    (hstd : stdIsZero x.2 = false) :
    cleanupStage (G ++ [x]) =
      cleanupStage G ++ (if hasNoneCol x.2 = true then [] else [x]) := by
  unfold cleanupStage
  rw [List.filter_append, List.filter_append]
  congr 1
  cases hn : hasNoneCol x.2 <;> simp [List.filter, hstd, hn]

theorem colFind_cons_of_ne {c : Column} {r : Frame} {n : String} (h : ¬(c.1 = n)) :
    colFind (c :: r) n = colFind r n := by
  unfold colFind
  rw [List.find?_cons_of_neg]
  simpa using h

theorem colFind_append_of_not_mem {l : Frame} {x : Column}
    (h : x.1 ∉ names l) : colFind (l ++ [x]) x.1 = some x.2 := by
  induction l with
  | nil => simp [colFind, List.find?]
  | cons c r ih =>
    simp only [names, List.map_cons, List.mem_cons] at h
    push_neg at h
    have hne : ¬(c.1 = x.1) := fun he => h.1 he.symm
    rw [List.cons_append, colFind_cons_of_ne hne]
    exact ih (by simpa [names] using h.2)

theorem nodup_names_filter {d : Frame} (p : Column → Bool)
    (h : (names d).Nodup) : (names (d.filter p)).Nodup := by
  have hsub : List.Sublist (names (d.filter p)) (names d) :=
    (List.filter_sublist d).map Prod.fst
  exact h.sublist hsub

theorem pruneAux_sublist {thr : ℚ} {l : List Column} :
    ∀ {prev : List Column}, List.Sublist (pruneAux thr prev l) l := by
  induction l with
  | nil => intro prev; simp [pruneAux]
  | cons c rest ih =>
    intro prev
    by_cases hc : prev.any (fun q => absCorrGTb q.2 c.2 thr) = true
    · rw [pruneAux, if_pos hc]
      exact (ih).trans (List.sublist_cons_self _ _)
    · rw [pruneAux, if_neg hc]
      exact List.Sublist.cons₂ c ih

theorem dropCols_nil (d : Frame) : dropCols d [] = d :=
  List.filter_eq_self.2 (fun c _ => by simp)

theorem dropKeysStage_nil (d : Frame) (t : String) : dropKeysStage d [] t = d := by
  unfold dropKeysStage
  rw [List.filter_nil, dropCols_nil]

theorem classificationSecondPass (flog : ℚ → ℚ) (t : String) (lt : Bool) (ct mt : ℚ)
    (D : Frame) (tc : List Val) (out : Frame)
    (hndD : (names D).Nodup)
    (hconstD : ∀ c ∈ D, nuniqueCol c.2 ≠ 1)
    (htcD : colFind D t = some tc)
    (hout : dedupCols (prunePairwise ct (cleanupStage (featureAssembly t t D)) ++ [(t, tc)])
      = out) :
    prepare_dataset flog out t [] lt ct mt true = .ok out := by
  set Fe := featureAssembly t t D with hFeDef
  set F0 := cleanupStage Fe with hF0Def
  set F := prunePairwise ct F0 with hFDef
  have htcMem : (t, tc) ∈ D := colFind_mem htcD
  have hFe_sub : ∀ c ∈ Fe, c ∈ D := by
    rw [hFeDef]
    intro c hc
    exact List.mem_of_mem_filter hc
  have hF0_mem : ∀ c ∈ F0, c ∈ Fe ∧ stdIsZero c.2 = false ∧ hasNoneCol c.2 = false :=
    fun c hc => cleanupStage_mem hc
  have hF_sub : ∀ c ∈ F, c ∈ F0 := fun c hc => pruneAux_mem hc
  have hFD : ∀ c ∈ F, c ∈ D := fun c hc => hFe_sub _ (hF0_mem _ (hF_sub _ hc)).1
  have hndFe : (names Fe).Nodup := by
    rw [hFeDef]
    exact nodup_names_filter _ hndD
  have hndF0 : (names F0).Nodup := by
    rw [hF0Def]
    exact nodup_names_filter _ (nodup_names_filter _ hndFe)
  have hndF : (names F).Nodup := by
    have hsub : List.Sublist (names F) (names F0) := by
      rw [hFDef]
      exact List.Sublist.map Prod.fst pruneAux_sublist
    exact hndF0.sublist hsub
  have hpwF : List.Pairwise (fun a b : Column => absCorrGTb a.2 b.2 ct = false) F := by
    rw [hFDef]
    exact pruneAux_pairwise
  have hprev0 : ∀ p ∈ ([] : List Column), ∀ x ∈ F, absCorrGTb p.2 x.2 ct = false := by
    intro p hp
    exact absurd hp (List.not_mem_nil p)
  have hstdtc : stdIsZero tc = false := by
    cases he : stdIsZero tc
    · rfl
    · exact absurd (stdIsZero_nunique he) (hconstD _ htcMem)
  have hlogFe : ("log_" ++ t) ∉ names Fe := by
    by_cases hmem : ("log_" ++ t) ∈ names D
    · rw [hFeDef]
      unfold featureAssembly
      apply not_mem_names_dropCols
      apply List.mem_filter.2
      refine ⟨List.mem_cons_of_mem _ (List.mem_singleton_self _), ?_⟩
      simp only [Bool.and_eq_true, decide_eq_true_eq]
      exact ⟨hmem, logname_ne t⟩
    · intro hm
      obtain ⟨v, hv⟩ := mem_names_iff.1 hm
      exact hmem (mem_names_of_mem (hFe_sub _ hv))
  have hout_sub : ∀ c ∈ out, c ∈ D := by
    rw [← hout]
    intro c hc
    have hc2 := mem_dedupAux hc
    rcases List.mem_append.1 hc2 with h1 | h1
    · exact hFD _ h1
    · rw [List.mem_singleton.1 h1]
      exact htcMem
  have hconst_out : dropConstant out = out :=
    List.filter_eq_self.2 fun c hc => by
      simp only [decide_eq_true_eq]
      exact hconstD _ (hout_sub _ hc)
  have hD2 : dropKeysStage (dropConstant out) [] t = out := by
    rw [hconst_out, dropKeysStage_nil]
  have hlogOut : ("log_" ++ t) ∉ names out := by
    intro hm
    obtain ⟨v, hv⟩ := mem_names_iff.1 hm
    rw [← hout] at hv
    have hv2 := mem_dedupAux hv
    rcases List.mem_append.1 hv2 with h1 | h1
    · exact hlogFe (mem_names_of_mem ((hF0_mem _ (hF_sub _ h1)).1))
    · have he := List.mem_singleton.1 h1
      exact logname_ne t (congrArg Prod.fst he)
  have hfa_out : featureAssembly t t out = out := by
    unfold featureAssembly
    have hL : (([t, "log_" ++ t]).filter fun c =>
        decide (c ∈ names out) && decide (c ≠ t)) = [] := by
      apply List.filter_eq_nil_iff.2
      intro a ha
      rcases List.mem_cons.1 ha with rfl | ha2
      · simp
      · rw [List.mem_singleton.1 ha2]
        simp [hlogOut]
    rw [hL, dropCols_nil]
  have htrans_out : transformStage flog lt true t out = .ok (out, t) := by
    unfold transformStage
    rw [if_neg (by simp)]
  have hentry_out : featureEntryFrame flog out t [] lt true = .ok (out, t, out) := by
    unfold featureEntryFrame
    rw [hD2]
    show Except.map _ (transformStage flog lt true t out) = _
    rw [htrans_out]
    show Except.ok (out, t, featureAssembly t t out) = _
    rw [hfa_out]
  have hcore_out : prepCore flog out t [] lt ct mt true
      = .ok (out, t, prunePairwise ct (cleanupStage out)) := by
    unfold prepCore
    rw [hentry_out]
    simp only [Except.bind]
    rfl
  have hcleanF : cleanupStage F = F :=
    cleanupStage_eq_self (fun c hc => (hF0_mem _ (hF_sub _ hc)).2.1)
      (fun c hc => (hF0_mem _ (hF_sub _ hc)).2.2)
  have hpruneF : prunePairwise ct F = F := pruneAux_eq_self hpwF hprev0
  by_cases htF : t ∈ names F
  · -- the target column survived inside the pruned features
    have htcF : (t, tc) ∈ F := by
      obtain ⟨v, hv⟩ := mem_names_iff.1 htF
      have hve : v = tc := nodup_names_unique hndD (hFD _ hv) htcMem
      rwa [hve] at hv
    have houtA : out = F := by
      rw [← hout, dedupCols_append_one _ hndF, if_pos htF]
    have hcolE_out : colE out t = .ok tc := by
      apply colE_ok_iff.2
      apply colFind_of_mem_nodup (houtA ▸ hndF)
      rw [houtA]
      exact htcF
    unfold prepare_dataset
    rw [hcore_out]
    simp only [Except.bind]
    rw [hcolE_out]
    show Except.ok (dedupCols (prunePairwise ct (cleanupStage out) ++ [(t, tc)])) = _
    rw [houtA, hcleanF, hpruneF]
    rw [show dedupCols (F ++ [(t, tc)]) = out from hout, houtA]
  · -- the target column did not survive; it was re-appended at the end
    have houtB : out = F ++ [(t, tc)] := by
      rw [← hout, dedupCols_append_one _ hndF, if_neg htF]
    have hcolE_out : colE out t = .ok tc := by
      apply colE_ok_iff.2
      rw [houtB]
      exact @colFind_append_of_not_mem F (t, tc) htF
    have hclean_out : cleanupStage out
        = F ++ (if hasNoneCol tc = true then [] else [(t, tc)]) := by
      rw [houtB, cleanupStage_append_one F (t, tc) hstdtc, hcleanF]
    unfold prepare_dataset
    rw [hcore_out]
    simp only [Except.bind]
    rw [hcolE_out]
    show Except.ok (dedupCols (prunePairwise ct (cleanupStage out) ++ [(t, tc)])) = _
    rw [hclean_out]
    by_cases hnn : hasNoneCol tc = true
    · rw [if_pos hnn, List.append_nil, hpruneF]
      rw [show dedupCols (F ++ [(t, tc)]) = out from hout]
    · rw [if_neg hnn]
      rcases pruneAux_append_one (t, tc) hpwF hprev0 with hp | hp
      · rw [show prunePairwise ct (F ++ [(t, tc)]) = F ++ [(t, tc)] from hp]
        have hndFt : (names (F ++ [(t, tc)])).Nodup := by
          rw [names_append]
          apply List.nodup_append.2
          refine ⟨hndF, by simp [names], ?_⟩
          intro a ha hb
          simp only [names, List.map_cons, List.map_nil, List.mem_singleton] at hb
          rw [hb] at ha
          exact htF ha
        rw [dedupCols_append_one _ hndFt, if_pos (by
          rw [names_append]
          exact List.mem_append_right _ (by simp [names]))]
        rw [houtB]
      · rw [show prunePairwise ct (F ++ [(t, tc)]) = F from hp]
        rw [show dedupCols (F ++ [(t, tc)]) = out from hout]

/-- Claim C9, counterexample: a regression run (no log transform) on columns
f = [5,5,5,5,7,9], t = [1,1,1,1,2,100] succeeds and keeps both columns with
five rows; feeding that output back with the same target and configuration
and empty key_cols succeeds again but removes the column f, so the second
output does not have the same columns as the first (the second Tukey pass
shrinks the fences, the trimmed feature becomes constant and is dropped). -/
theorem claimC9_counterexample :
    prepare_dataset flogZero [("f", [some 5, some 5, some 5, some 5, some 7, some 9]),
        ("t", [some 1, some 1, some 1, some 1, some 2, some 100])] "t" []
        false (85/100) (5/100) false
      = .ok [("f", [some 5, some 5, some 5, some 5, some 7]),
             ("t", [some 1, some 1, some 1, some 1, some 2])] ∧
    prepare_dataset flogZero [("f", [some 5, some 5, some 5, some 5, some 7]),
        ("t", [some 1, some 1, some 1, some 1, some 2])] "t" []
        false (85/100) (5/100) false
      = .ok [("t", [some 1, some 1, some 1, some 1])] ∧
    names [("t", [some (1:ℚ), some 1, some 1, some 1])]
      ≠ names [("f", [some (5:ℚ), some 5, some 5, some 5, some 7]),
               ("t", [some 1, some 1, some 1, some 1, some 2])] :=
  ⟨by decide, by decide, by decide⟩

/-- Claim C9, amended: in classification mode, applying prepare_dataset a
second time to its own successful output, with the same target and
configuration and an empty key_cols set, returns the same frame: no further
column (or row) removal occurs. -/
theorem claimC9_theorem (flog : ℚ → ℚ) (d : Frame) (t : String) (k : List String)
    (lt : Bool) (ct mt : ℚ) (out : Frame)
    (hnd : (names d).Nodup)
    (h : prepare_dataset flog d t k lt ct mt true = .ok out) :
    prepare_dataset flog out t [] lt ct mt true = .ok out := by
  have htrans1 : transformStage flog lt true t (dropKeysStage (dropConstant d) k t)
      = .ok (dropKeysStage (dropConstant d) k t, t) := by
    unfold transformStage
    rw [if_neg (by simp)]
  have hentry1 : featureEntryFrame flog d t k lt true
      = .ok (dropKeysStage (dropConstant d) k t, t,
          featureAssembly t t (dropKeysStage (dropConstant d) k t)) := by
    unfold featureEntryFrame
    rw [show outlierStage true t (dropKeysStage (dropConstant d) k t)
      = .ok (dropKeysStage (dropConstant d) k t) from rfl]
    show Except.map _ (transformStage flog lt true t (dropKeysStage (dropConstant d) k t)) = _
    rw [htrans1]
    rfl
  have hcore1 : prepCore flog d t k lt ct mt true
      = .ok (dropKeysStage (dropConstant d) k t, t,
          prunePairwise ct (cleanupStage
            (featureAssembly t t (dropKeysStage (dropConstant d) k t)))) := by
    unfold prepCore
    rw [hentry1]
    simp only [Except.bind]
    rfl
  unfold prepare_dataset at h
  rw [hcore1] at h
  simp only [Except.bind] at h
  obtain ⟨tc, htc, hout⟩ := exceptMap_ok.1 h
  have hndD : (names (dropKeysStage (dropConstant d) k t)).Nodup :=
    nodup_names_filter _ (nodup_names_filter _ hnd)
  have hconstD : ∀ c ∈ dropKeysStage (dropConstant d) k t, nuniqueCol c.2 ≠ 1 := by
    intro c hc
    have hc2 : c ∈ dropConstant d := List.mem_of_mem_filter hc
    have := (List.mem_filter.1 hc2).2
    simpa using this
  exact classificationSecondPass flog t lt ct mt (dropKeysStage (dropConstant d) k t)
    tc out hndD hconstD (colE_ok_iff.1 htc) hout

/-- Claim C9, witness: a classification run on a clean two-column frame
returns the frame unchanged, and running the pipeline on that output again
returns it unchanged as well. -/
theorem claimC9_witness :
    prepare_dataset flogZero [("f", [some 1, some 2]), ("t", [some 3, some 4])] "t" []
        true (85/100) (5/100) true
      = .ok [("f", [some 1, some 2]), ("t", [some 3, some 4])] :=
  claimC9_theorem flogZero [("f", [some 1, some 2]), ("t", [some 3, some 4])] "t" []
    true (85/100) (5/100) [("f", [some 1, some 2]), ("t", [some 3, some 4])]
    (by decide) (by decide)

/-- Claim C4, witness for the amended theorem at the concrete regression
input with columns [t, f]. -/
theorem claimC4_witness :
    prepare_dataset flogZero [("t", [some 1, some 2, some 3, some 4]),
        ("f", [some 1, some 2, some 1, some 3])] "t" [] false (85/100) (5/100) false
      = .ok (dedupCols ([("t", [some 1, some 2, some 3, some 4]),
          ("f", [some 1, some 2, some 1, some 3])] ++ [("t", [some 1, some 2, some 3, some 4])])) ∧
    (names (dedupCols ([("t", [some 1, some 2, some 3, some 4]),
        ("f", [some 1, some 2, some 1, some 3])] ++ [("t", [some 1, some 2, some 3, some 4])]))).Nodup ∧
    (names (dedupCols ([("t", [some 1, some 2, some 3, some 4]),
        ("f", [some 1, some 2, some 1, some 3])] ++ [("t", [some 1, some 2, some 3, some 4])]))).count "t" = 1 ∧
    ("t" ∉ names [("t", [some (1:ℚ), some 2, some 3, some 4]),
        ("f", [some (1:ℚ), some 2, some 1, some 3])] →
      (names (dedupCols ([("t", [some 1, some 2, some 3, some 4]),
          ("f", [some 1, some 2, some 1, some 3])] ++ [("t", [some 1, some 2, some 3, some 4])]))).getLast?
        = some "t") :=
  claimC4_theorem flogZero [("t", [some 1, some 2, some 3, some 4]),
      ("f", [some 1, some 2, some 1, some 3])] "t" [] false (85/100) (5/100) false
    [("t", [some 1, some 2, some 3, some 4]), ("f", [some 1, some 2, some 1, some 3])] "t"
    [("t", [some 1, some 2, some 3, some 4]), ("f", [some 1, some 2, some 1, some 3])]
    [some 1, some 2, some 3, some 4] (by decide) (by decide)
